import Mathlib

/-!
Verification of the Monte-Carlo stock-price simulation
(`src/monte_carlo_simulation.cpp`) against its design specification.

The C++ program is embedded shallowly:

* `double` values are modelled as real numbers `ℝ`.
* The Mersenne-twister random source `std::mt19937` together with the
  `std::normal_distribution` wrapper is modelled as an infinite stream
  `Z : ℕ → ℝ` of standard-normal draws plus a cursor `k : ℕ`; each call
  `dist(gen)` returns `Z k` and advances the cursor to `k + 1`.
* `std::vector<double>` becomes `List ℝ`; indexing `v[i]` becomes
  `List.getD i 0` (all indices proved in bounds where the claims need it).
* `static_cast<int>` of a non-negative `double` truncates toward zero,
  i.e. is the floor, modelled by `Nat.floor` on `ℝ`.
* `std::sort` ascending is modelled by `List.insertionSort (· ≤ ·)`; any
  two `≤`-sorted permutations of the same list are equal, so the choice
  of sorting algorithm is immaterial.
-/

/-- Embedding of `struct SimulationParams` (lines 12-19 of the source):
initial price `S0`, annualized return `mu`, annualized volatility `sigma`,
horizon `T` in years, number of time steps and number of paths. -/
structure SimulationParams where
  S0 : ℝ
  mu : ℝ
  sigma : ℝ
  T : ℝ
  steps : ℕ
  num_paths : ℕ

/-- Time step size `dt = params.T / params.steps` (line 27). -/
noncomputable def dt (p : SimulationParams) : ℝ := p.T / p.steps

/-- Precomputed `drift = (params.mu - 0.5 * params.sigma * params.sigma) * dt`
(line 30), constant across the trajectory. -/
noncomputable def drift (p : SimulationParams) : ℝ := (p.mu - 0.5 * p.sigma * p.sigma) * dt p

/-- Precomputed `vol = params.sigma * std::sqrt(dt)` (line 31), constant
across the trajectory. -/
noncomputable def vol (p : SimulationParams) : ℝ := p.sigma * Real.sqrt (dt p)

/-- Value of `path[i]` in the fill loop of `generatePath` (lines 24, 37-40):
`path[0] = S0` and `path[i] = path[i-1] * exp(drift + vol * Z)` where the
`i`-th iteration draws the sample at cursor position `k + (i-1)`. -/
noncomputable def price (p : SimulationParams) (Z : ℕ → ℝ) (k : ℕ) : ℕ → ℝ
  | 0 => p.S0
  | i + 1 => price p Z k i * Real.exp (drift p + vol p * Z (k + i))

/-- Embedding of `generatePath` (lines 22-43): from a parameter set, the
random stream and the current cursor, produce the vector
`path[0..steps]` together with the cursor after the `steps` draws made by
the loop (the C++ generator is advanced by reference). -/
noncomputable def generatePath (p : SimulationParams) (Z : ℕ → ℝ) (k : ℕ) :
    List ℝ × ℕ :=
  ((List.range (p.steps + 1)).map (price p Z k), k + p.steps)

/-- The path-generation loop of `runMonteCarloSimulation` (lines 52-55):
`n` remaining paths are generated from cursor `k`, each call threading the
shared random source's cursor into the next. -/
noncomputable def runLoop (p : SimulationParams) (Z : ℕ → ℝ) : ℕ → ℕ → List (List ℝ)
  | _, 0 => []
  | k, n + 1 =>
    (generatePath p Z k).1 :: runLoop p Z (generatePath p Z k).2 n

/-- Embedding of `runMonteCarloSimulation` (lines 46-58): one random source
for the whole run, `num_paths` trajectories drawn from the single
continuing stream starting at cursor `0`. -/
noncomputable def runMonteCarloSimulation (p : SimulationParams) (Z : ℕ → ℝ) :
    List (List ℝ) :=
  runLoop p Z 0 p.num_paths

/-- The six statistics printed by `calculateStatistics` (lines 96-103). -/
structure SummaryStats where
  mean : ℝ
  std_dev : ℝ
  min_price : ℝ
  max_price : ℝ
  percentile_5 : ℝ
  percentile_95 : ℝ

/-- Extraction of the final prices `path[steps]` from every path
(lines 66-69 of `calculateStatistics`). -/
def finalPrices (paths : List (List ℝ)) (steps : ℕ) : List ℝ :=
  paths.map (fun path => path.getD steps 0)

/-- Embedding of `*std::min_element(v.begin(), v.end())` (line 86) for a
non-empty vector; the empty case (undefined in C++) defaults to `0`. -/
def listMin : List ℝ → ℝ
  | [] => 0
  | x :: xs => xs.foldl min x

/-- Embedding of `*std::max_element(v.begin(), v.end())` (line 87) for a
non-empty vector; the empty case (undefined in C++) defaults to `0`. -/
def listMax : List ℝ → ℝ
  | [] => 0
  | x :: xs => xs.foldl max x

/-- The percentile rank `static_cast<int>(x * num_paths)` (lines 92-93):
truncation toward zero of a non-negative real, i.e. its floor. -/
noncomputable def percentileIndex (x : ℝ) (n : ℕ) : ℕ := ⌊x * (n : ℝ)⌋₊

/-- Embedding of `calculateStatistics` (lines 61-104): extract the terminal
prices, then mean (divisor `num_paths`), population standard deviation
(divisor `num_paths`), extrema, and the nearest-rank 5th and 95th
percentiles of the ascending-sorted terminal prices. -/
noncomputable def calculateStatistics (paths : List (List ℝ)) (p : SimulationParams) :
    SummaryStats :=
  let final_prices := finalPrices paths p.steps
  let num_paths := paths.length
  let mean := final_prices.sum / num_paths
  let std_dev :=
    Real.sqrt ((final_prices.map (fun price => (price - mean) * (price - mean))).sum / num_paths)
  let sorted_prices := final_prices.insertionSort (· ≤ ·)
  { mean := mean
    std_dev := std_dev
    min_price := listMin final_prices
    max_price := listMax final_prices
    percentile_5 := sorted_prices.getD (percentileIndex 0.05 num_paths) 0
    percentile_95 := sorted_prices.getD (percentileIndex 0.95 num_paths) 0 }

/-- Population standard deviation exactly as the specification words it:
square root of the mean of squared deviations from the mean, with divisor
equal to the number of values (not one less). Stated independently of
`calculateStatistics` so the code's formula can be compared against it. -/
noncomputable def popStdDevSpec (l : List ℝ) : ℝ :=
  Real.sqrt ((l.map (fun x => (x - l.sum / l.length) ^ 2)).sum / l.length)

/-- The time values written in the header row of `stock_price_paths.csv`
by `saveResultsToCSV` (lines 113-117): `t = i * (params.T / params.steps)`
for `i` in `0..steps`. -/
noncomputable def headerTimes (p : SimulationParams) : List ℝ :=
  (List.range (p.steps + 1)).map (fun i : ℕ => (i : ℝ) * (p.T / p.steps))

/-- The values written one per line to `time_points.csv` by
`saveResultsToCSV` (lines 133-138): `t = i * (params.T / params.steps)` for
`i` in `0..steps`. -/
noncomputable def timePointsFile (p : SimulationParams) : List ℝ :=
  (List.range (p.steps + 1)).map (fun i : ℕ => (i : ℝ) * (p.T / p.steps))

/-- The `InvalidParameter` taxonomy of the specification:
any of S0 ≤ 0, sigma < 0, T ≤ 0, steps < 1, num_paths < 1. -/
def InvalidParameter (p : SimulationParams) : Prop :=
  p.S0 ≤ 0 ∨ p.sigma < 0 ∨ p.T ≤ 0 ∨ p.steps < 1 ∨ p.num_paths < 1

/-- Embedding of the control flow of `main` (lines 304-351): the six
parameters read from standard input are passed to
`runMonteCarloSimulation` unconditionally — `main` contains no validation
branch and no error return, so the run never rejects its input. -/
noncomputable def mainSim (p : SimulationParams) (Z : ℕ → ℝ) :
    Except String (List (List ℝ)) :=
  Except.ok (runMonteCarloSimulation p Z)

/-! ## Helper lemmas -/

/-- The path vector holds `price` at every index up to `steps`. -/
lemma generatePath_getD (p : SimulationParams) (Z : ℕ → ℝ) (k : ℕ) {i : ℕ}
    (hi : i ≤ p.steps) : ((generatePath p Z k).1).getD i 0 = price p Z k i := by
  have hlt : i < p.steps + 1 := Nat.lt_succ_of_le hi
  simp [generatePath, List.getD_eq_getElem?_getD, List.getElem?_map,
    List.getElem?_range hlt]

/-- The path vector has `steps + 1` entries. -/
lemma generatePath_length (p : SimulationParams) (Z : ℕ → ℝ) (k : ℕ) :
    ((generatePath p Z k).1).length = p.steps + 1 := by
  simp [generatePath]

/-- Positivity of the recurrence from a positive initial price. -/
lemma price_pos (p : SimulationParams) (Z : ℕ → ℝ) (k : ℕ) (hS0 : 0 < p.S0) :
    ∀ i, 0 < price p Z k i
  | 0 => hS0
  | i + 1 => mul_pos (price_pos p Z k hS0 i) (Real.exp_pos _)

/-- With zero volatility the recurrence collapses to deterministic
exponential drift at rate `mu`. -/
lemma price_sigma_zero (p : SimulationParams) (Z : ℕ → ℝ) (k : ℕ)
    (hsigma : p.sigma = 0) :
    ∀ i, price p Z k i = p.S0 * Real.exp (p.mu * i * dt p)
  | 0 => by simp [price]
  | i + 1 => by
    have hvol : vol p = 0 := by simp [vol, hsigma]
    have hdrift : drift p = p.mu * dt p := by simp [drift, hsigma]
    rw [price, price_sigma_zero p Z k hsigma i, hvol, hdrift, zero_mul, add_zero,
      mul_assoc, ← Real.exp_add]
    congr 1
    push_cast
    ring_nf

/-- A left fold of `min` is below its initial accumulator. -/
lemma foldl_min_le_init (l : List ℝ) (a : ℝ) : l.foldl min a ≤ a := by
  induction l generalizing a with
  | nil => simp
  | cons b t ih => exact le_trans (ih (min a b)) (min_le_left a b)

/-- A left fold of `min` is below every member of the list. -/
lemma foldl_min_le_mem : ∀ (l : List ℝ) (a x : ℝ), x ∈ l → l.foldl min a ≤ x
  | b :: t, a, x, hx => by
    rcases List.mem_cons.mp hx with rfl | hx
    · exact le_trans (foldl_min_le_init t (min a x)) (min_le_right a x)
    · exact foldl_min_le_mem t (min a b) x hx

/-- `listMin` is a lower bound of the list. -/
lemma listMin_le {l : List ℝ} {x : ℝ} (hx : x ∈ l) : listMin l ≤ x := by
  cases l with
  | nil => cases hx
  | cons b t =>
    rcases List.mem_cons.mp hx with rfl | hx
    · exact foldl_min_le_init t x
    · exact foldl_min_le_mem t b x hx

/-- A left fold of `max` is above its initial accumulator. -/
lemma init_le_foldl_max (l : List ℝ) (a : ℝ) : a ≤ l.foldl max a := by
  induction l generalizing a with
  | nil => simp
  | cons b t ih => exact le_trans (le_max_left a b) (ih (max a b))

/-- A left fold of `max` is above every member of the list. -/
lemma mem_le_foldl_max : ∀ (l : List ℝ) (a x : ℝ), x ∈ l → x ≤ l.foldl max a
  | b :: t, a, x, hx => by
    rcases List.mem_cons.mp hx with rfl | hx
    · exact le_trans (le_max_right a x) (init_le_foldl_max t (max a x))
    · exact mem_le_foldl_max t (max a b) x hx

/-- `listMax` is an upper bound of the list. -/
lemma le_listMax {l : List ℝ} {x : ℝ} (hx : x ∈ l) : x ≤ listMax l := by
  cases l with
  | nil => cases hx
  | cons b t =>
    rcases List.mem_cons.mp hx with rfl | hx
    · exact init_le_foldl_max t x
    · exact mem_le_foldl_max t b x hx

/-- A sum of non-negative reals vanishes exactly when every term does. -/
lemma list_sum_eq_zero_iff {l : List ℝ} (h : ∀ x ∈ l, 0 ≤ x) :
    l.sum = 0 ↔ ∀ x ∈ l, x = 0 := by
  induction l with
  | nil => simp
  | cons b t ih =>
    have hb : 0 ≤ b := h b (List.mem_cons_self b t)
    have ht : ∀ x ∈ t, 0 ≤ x := fun x hx => h x (List.mem_cons_of_mem b hx)
    have htsum : 0 ≤ t.sum := List.sum_nonneg ht
    rw [List.sum_cons]
    constructor
    · intro h0
      have hb0 : b = 0 := by linarith
      have ht0 : t.sum = 0 := by linarith
      intro x hx
      rcases List.mem_cons.mp hx with rfl | hx
      · exact hb0
      · exact (ih ht).mp ht0 x hx
    · intro hall
      have hb0 : b = 0 := hall b (List.mem_cons_self b t)
      have ht0 : t.sum = 0 := (ih ht).mpr fun x hx => hall x (List.mem_cons_of_mem b hx)
      rw [hb0, ht0, add_zero]

/-- A list of copies of `a` sums to `length * a`. -/
lemma list_sum_all_eq (l : List ℝ) (a : ℝ) (h : ∀ x ∈ l, x = a) :
    l.sum = l.length * a := by
  induction l with
  | nil => simp
  | cons b t ih =>
    have hb : b = a := h b (List.mem_cons_self b t)
    have ht := ih fun x hx => h x (List.mem_cons_of_mem b hx)
    rw [List.sum_cons, hb, ht, List.length_cons]
    push_cast
    ring

/-! ## Claim theorems -/

/-- C1: for every parameter set with `steps ≥ 1` and `T > 0` and every
random-source state, `generatePath` follows the log-Euler GBM recurrence:
with `dt = T / steps`, `drift = (mu - 0.5·sigma²)·dt` and
`vol = sigma·sqrt(dt)` computed once per trajectory, each step `i` from `1`
to `steps` consumes exactly one normal sample (the cursor advances by
exactly `steps` over the whole path, step `i` reading position
`k + (i-1)`), and `price[i] = price[i-1] · exp(drift + vol·Z_i)`. -/
theorem C1_generatePath_recurrence (p : SimulationParams) (Z : ℕ → ℝ) (k : ℕ)
    (hsteps : 1 ≤ p.steps) (hT : 0 < p.T) :
    drift p = (p.mu - 0.5 * p.sigma * p.sigma) * (p.T / p.steps) ∧
    vol p = p.sigma * Real.sqrt (p.T / p.steps) ∧
    (generatePath p Z k).2 = k + p.steps ∧
    ∀ i, 1 ≤ i → i ≤ p.steps →
      ((generatePath p Z k).1).getD i 0 =
        ((generatePath p Z k).1).getD (i - 1) 0 *
          Real.exp (drift p + vol p * Z (k + (i - 1))) := by
  refine ⟨rfl, rfl, rfl, ?_⟩
  intro i h1 h2
  obtain ⟨j, rfl⟩ : ∃ j, i = j + 1 := ⟨i - 1, (Nat.succ_pred_eq_of_pos h1).symm⟩
  simp only [Nat.add_sub_cancel]
  rw [generatePath_getD p Z k h2,
    generatePath_getD p Z k (le_trans (Nat.le_succ j) h2)]
  rfl

/-- Witness for C1 at `S0 = 100`, `mu = 0.05`, `sigma = 0.2`, `T = 1`,
`steps = 2`, all normal draws `0`, cursor `0`, step `i = 1`. -/
theorem C1_generatePath_recurrence_witness :
    1 ≤ (2 : ℕ) ∧ (0 : ℝ) < 1 ∧
    ((generatePath ⟨100, 0.05, 0.2, 1, 2, 1⟩ (fun _ => 0) 0).1).getD 1 0 =
      ((generatePath ⟨100, 0.05, 0.2, 1, 2, 1⟩ (fun _ => 0) 0).1).getD 0 0 *
        Real.exp (drift ⟨100, 0.05, 0.2, 1, 2, 1⟩ +
          vol ⟨100, 0.05, 0.2, 1, 2, 1⟩ * 0) :=
  ⟨by norm_num, by norm_num,
    (C1_generatePath_recurrence ⟨100, 0.05, 0.2, 1, 2, 1⟩ (fun _ => 0) 0
      (by norm_num) (by norm_num)).2.2.2 1 (by norm_num) (by norm_num)⟩

/-- C2: for valid parameters (`S0 > 0`, `sigma ≥ 0`, `T > 0`, `steps ≥ 1`)
and any random-source state, the trajectory has exactly `steps + 1`
elements, its element at index `0` is `S0`, and every element is strictly
positive. -/
theorem C2_trajectory_shape (p : SimulationParams) (Z : ℕ → ℝ) (k : ℕ)
    (hS0 : 0 < p.S0) (hsigma : 0 ≤ p.sigma) (hT : 0 < p.T) (hsteps : 1 ≤ p.steps) :
    ((generatePath p Z k).1).length = p.steps + 1 ∧
    ((generatePath p Z k).1).getD 0 0 = p.S0 ∧
    ∀ x ∈ (generatePath p Z k).1, 0 < x := by
  refine ⟨generatePath_length p Z k, generatePath_getD p Z k (Nat.zero_le _), ?_⟩
  intro x hx
  simp only [generatePath, List.mem_map, List.mem_range] at hx
  obtain ⟨i, _, rfl⟩ := hx
  exact price_pos p Z k hS0 i

/-- Witness for C2 at `S0 = 100`, `mu = 0.08`, `sigma = 0.2`, `T = 1`,
`steps = 2`, all normal draws `0`, cursor `0`. -/
theorem C2_trajectory_shape_witness :
    (0 : ℝ) < 100 ∧ (0 : ℝ) ≤ 0.2 ∧ (0 : ℝ) < 1 ∧ 1 ≤ (2 : ℕ) ∧
    (((generatePath ⟨100, 0.08, 0.2, 1, 2, 3⟩ (fun _ => 0) 0).1).length = 2 + 1 ∧
     ((generatePath ⟨100, 0.08, 0.2, 1, 2, 3⟩ (fun _ => 0) 0).1).getD 0 0 = 100 ∧
     ∀ x ∈ (generatePath ⟨100, 0.08, 0.2, 1, 2, 3⟩ (fun _ => 0) 0).1, 0 < x) :=
  ⟨by norm_num, by norm_num, by norm_num, by norm_num,
    C2_trajectory_shape ⟨100, 0.08, 0.2, 1, 2, 3⟩ (fun _ => 0) 0
      (by norm_num) (by norm_num) (by norm_num) (by norm_num)⟩

/-- C7: with `sigma = 0` and any valid remaining parameters, the trajectory
is exactly deterministic whatever the random-source state:
`price[i] = S0 · exp(mu · i · dt)` for every `i ≤ steps`, with
`dt = T / steps`; no special-casing is involved. -/
theorem C7_sigma_zero_deterministic (p : SimulationParams)
    (hsigma : p.sigma = 0) (hS0 : 0 < p.S0) (hT : 0 < p.T) (hsteps : 1 ≤ p.steps) :
    ∀ (Z : ℕ → ℝ) (k : ℕ), ∀ i ≤ p.steps,
      ((generatePath p Z k).1).getD i 0 =
        p.S0 * Real.exp (p.mu * i * (p.T / p.steps)) := by
  intro Z k i hi
  rw [generatePath_getD p Z k hi, price_sigma_zero p Z k hsigma i]
  rfl

/-- Witness for C7 at `S0 = 100`, `mu = 0.08`, `sigma = 0`, `T = 1`,
`steps = 1`, index `i = 1`: the scenario of the specification, giving
`price[1] = 100 · exp(0.08)`. -/
theorem C7_sigma_zero_deterministic_witness :
    (⟨100, 0.08, 0, 1, 1, 1⟩ : SimulationParams).sigma = 0 ∧ (0 : ℝ) < 100 ∧
    (0 : ℝ) < 1 ∧ 1 ≤ (1 : ℕ) ∧
    ((generatePath ⟨100, 0.08, 0, 1, 1, 1⟩ (fun _ => 37) 0).1).getD 1 0 =
      100 * Real.exp (0.08 * 1 * (1 / 1)) := by
  refine ⟨rfl, by norm_num, by norm_num, le_refl 1, ?_⟩
  have h := C7_sigma_zero_deterministic ⟨100, 0.08, 0, 1, 1, 1⟩ rfl
    (by norm_num) (by norm_num) (le_refl 1) (fun _ => 37) 0 1 (le_refl 1)
  simpa using h

/-- C3: for every non-empty ensemble, the percentiles of
`calculateStatistics` are nearest-rank with no interpolation: against any
ascending-sorted rearrangement `s` of the terminal values, `percentile(p)`
is the element of `s` at 0-indexed position `floor(p · num_paths)`, with
`p = 0.05` and `p = 0.95`; for an ensemble of exactly 100 paths the
positions are `5` and `95`. -/
theorem C3_percentiles_nearest_rank (paths : List (List ℝ)) (p : SimulationParams)
    (hne : paths ≠ []) (s : List ℝ)
    (hperm : s.Perm (finalPrices paths p.steps))
    (hsort : s.Sorted (· ≤ ·)) :
    (calculateStatistics paths p).percentile_5 =
      s.getD (Nat.floor ((0.05 : ℝ) * paths.length)) 0 ∧
    (calculateStatistics paths p).percentile_95 =
      s.getD (Nat.floor ((0.95 : ℝ) * paths.length)) 0 ∧
    (paths.length = 100 →
      (calculateStatistics paths p).percentile_5 = s.getD 5 0 ∧
      (calculateStatistics paths p).percentile_95 = s.getD 95 0) := by
  have hs : s = (finalPrices paths p.steps).insertionSort (· ≤ ·) :=
    List.eq_of_perm_of_sorted
      (hperm.trans (List.perm_insertionSort _ _).symm) hsort
      (List.sorted_insertionSort _ _)
  subst hs
  refine ⟨rfl, rfl, ?_⟩
  intro h100
  have h5 : Nat.floor ((0.05 : ℝ) * (paths.length : ℕ)) = 5 := by
    rw [h100]; norm_num
  have h95 : Nat.floor ((0.95 : ℝ) * (paths.length : ℕ)) = 95 := by
    rw [h100]; norm_num
  constructor
  · show ((finalPrices paths p.steps).insertionSort (· ≤ ·)).getD
      (percentileIndex 0.05 paths.length) 0 = _
    rw [percentileIndex, h5]
  · show ((finalPrices paths p.steps).insertionSort (· ≤ ·)).getD
      (percentileIndex 0.95 paths.length) 0 = _
    rw [percentileIndex, h95]

/-- Witness for C3 on the 3-path ensemble with terminal values
`[3, 1, 2]` (each path `[0, v]`, `steps = 1`), sorted `s = [1, 2, 3]`. -/
theorem C3_percentiles_nearest_rank_witness :
    ([[0, 3], [0, 1], [0, 2]] : List (List ℝ)) ≠ [] ∧
    ([1, 2, 3] : List ℝ).Perm
      (finalPrices [[0, 3], [0, 1], [0, 2]] (⟨1, 0, 0, 1, 1, 3⟩ : SimulationParams).steps) ∧
    ([1, 2, 3] : List ℝ).Sorted (· ≤ ·) ∧
    (calculateStatistics [[0, 3], [0, 1], [0, 2]] ⟨1, 0, 0, 1, 1, 3⟩).percentile_5 =
      ([1, 2, 3] : List ℝ).getD
        (Nat.floor ((0.05 : ℝ) * ([[0, 3], [0, 1], [0, 2]] : List (List ℝ)).length)) 0 :=
  have hfin : finalPrices [[0, 3], [0, 1], [0, 2]]
      (⟨1, 0, 0, 1, 1, 3⟩ : SimulationParams).steps = [3, 1, 2] := by
    simp [finalPrices]
  have hperm : ([1, 2, 3] : List ℝ).Perm
      (finalPrices [[0, 3], [0, 1], [0, 2]] (⟨1, 0, 0, 1, 1, 3⟩ : SimulationParams).steps) := by
    rw [hfin]
    exact ((List.Perm.swap 1 3 [2]).trans
      (List.Perm.cons 1 (List.Perm.swap 2 3 []))).symm
  have hsort : ([1, 2, 3] : List ℝ).Sorted (· ≤ ·) := by
    simp [List.sorted_cons]; norm_num
  ⟨by simp, hperm, hsort,
    (C3_percentiles_nearest_rank [[0, 3], [0, 1], [0, 2]] ⟨1, 0, 0, 1, 1, 3⟩
      (by simp) [1, 2, 3] hperm hsort).1⟩

/-- C4: for every non-empty ensemble, the standard deviation of
`calculateStatistics` is the population standard deviation of the terminal
values — square root of the mean squared deviation from the mean with
divisor `num_paths`, not `num_paths - 1`. -/
theorem C4_std_dev_population (paths : List (List ℝ)) (p : SimulationParams)
    (hne : paths ≠ []) :
    (calculateStatistics paths p).std_dev = popStdDevSpec (finalPrices paths p.steps) := by
  have hlen : (finalPrices paths p.steps).length = paths.length :=
    List.length_map _ _
  simp only [calculateStatistics, popStdDevSpec, hlen, pow_two]

/-- Witness for C4 on the 2-path ensemble with terminal values `[2, 4]`. -/
theorem C4_std_dev_population_witness :
    ([[0, 2], [0, 4]] : List (List ℝ)) ≠ [] ∧
    (calculateStatistics [[0, 2], [0, 4]] ⟨1, 0, 0, 1, 1, 2⟩).std_dev =
      popStdDevSpec (finalPrices [[0, 2], [0, 4]] (⟨1, 0, 0, 1, 1, 2⟩ : SimulationParams).steps) :=
  ⟨by simp, C4_std_dev_population [[0, 2], [0, 4]] ⟨1, 0, 0, 1, 1, 2⟩ (by simp)⟩

/-- In an ascending-sorted list, entries are monotone in the index. -/
lemma sorted_getElem_le (l : List ℝ) (h : l.Sorted (· ≤ ·)) (i j : ℕ)
    (hi : i < l.length) (hj : j < l.length) (hij : i ≤ j) : l[i] ≤ l[j] := by
  have := @List.Sorted.rel_get_of_le ℝ (· ≤ ·) _ l h ⟨i, hi⟩ ⟨j, hj⟩
    (Fin.mk_le_mk.mpr hij)
  simpa using this

/-- Both percentile ranks are strictly below the number of paths. -/
lemma percentileIndex_lt (n : ℕ) (hn : 1 ≤ n) :
    percentileIndex 0.05 n < n ∧ percentileIndex 0.95 n < n := by
  have hnR : (1 : ℝ) ≤ (n : ℝ) := by exact_mod_cast hn
  constructor
  · rw [percentileIndex]
    refine (Nat.floor_lt (by positivity)).mpr ?_
    nlinarith
  · rw [percentileIndex]
    refine (Nat.floor_lt (by positivity)).mpr ?_
    nlinarith

/-- C6: for every non-empty ensemble, the computed statistics satisfy
`minimum ≤ percentile_5 ≤ percentile_95 ≤ maximum`. -/
theorem C6_extrema_bound_percentiles (paths : List (List ℝ)) (p : SimulationParams)
    (hne : paths ≠ []) :
    (calculateStatistics paths p).min_price ≤ (calculateStatistics paths p).percentile_5 ∧
    (calculateStatistics paths p).percentile_5 ≤ (calculateStatistics paths p).percentile_95 ∧
    (calculateStatistics paths p).percentile_95 ≤ (calculateStatistics paths p).max_price := by
  have hn : 0 < paths.length := List.length_pos.mpr hne
  obtain ⟨h5lt, h95lt⟩ := percentileIndex_lt paths.length hn
  have hmono : percentileIndex 0.05 paths.length ≤ percentileIndex 0.95 paths.length := by
    apply Nat.floor_le_floor
    have : (0 : ℝ) ≤ (paths.length : ℝ) := Nat.cast_nonneg _
    nlinarith
  have hslen : ((finalPrices paths p.steps).insertionSort (· ≤ ·)).length = paths.length := by
    rw [List.length_insertionSort, finalPrices, List.length_map]
  have h5lt' : percentileIndex 0.05 paths.length <
      ((finalPrices paths p.steps).insertionSort (· ≤ ·)).length := by
    rw [hslen]; exact h5lt
  have h95lt' : percentileIndex 0.95 paths.length <
      ((finalPrices paths p.steps).insertionSort (· ≤ ·)).length := by
    rw [hslen]; exact h95lt
  have hp5 : (calculateStatistics paths p).percentile_5 =
      ((finalPrices paths p.steps).insertionSort (· ≤ ·))[percentileIndex 0.05 paths.length] :=
    List.getD_eq_getElem _ 0 h5lt'
  have hp95 : (calculateStatistics paths p).percentile_95 =
      ((finalPrices paths p.steps).insertionSort (· ≤ ·))[percentileIndex 0.95 paths.length] :=
    List.getD_eq_getElem _ 0 h95lt'
  have hmem5 : ((finalPrices paths p.steps).insertionSort (· ≤ ·))[percentileIndex 0.05 paths.length]
      ∈ finalPrices paths p.steps :=
    (List.mem_insertionSort _).mp (List.getElem_mem h5lt')
  have hmem95 : ((finalPrices paths p.steps).insertionSort (· ≤ ·))[percentileIndex 0.95 paths.length]
      ∈ finalPrices paths p.steps :=
    (List.mem_insertionSort _).mp (List.getElem_mem h95lt')
  refine ⟨?_, ?_, ?_⟩
  · rw [hp5]
    exact listMin_le hmem5
  · rw [hp5, hp95]
    exact sorted_getElem_le _ (List.sorted_insertionSort _ _) _ _ h5lt' h95lt' hmono
  · rw [hp95]
    exact le_listMax hmem95

/-- Witness for C6 on the 3-path ensemble with terminal values `[3, 1, 2]`. -/
theorem C6_extrema_bound_percentiles_witness :
    ([[0, 3], [0, 1], [0, 2]] : List (List ℝ)) ≠ [] ∧
    ((calculateStatistics [[0, 3], [0, 1], [0, 2]] ⟨1, 0, 0.5, 1, 1, 3⟩).min_price ≤
       (calculateStatistics [[0, 3], [0, 1], [0, 2]] ⟨1, 0, 0.5, 1, 1, 3⟩).percentile_5 ∧
     (calculateStatistics [[0, 3], [0, 1], [0, 2]] ⟨1, 0, 0.5, 1, 1, 3⟩).percentile_5 ≤
       (calculateStatistics [[0, 3], [0, 1], [0, 2]] ⟨1, 0, 0.5, 1, 1, 3⟩).percentile_95 ∧
     (calculateStatistics [[0, 3], [0, 1], [0, 2]] ⟨1, 0, 0.5, 1, 1, 3⟩).percentile_95 ≤
       (calculateStatistics [[0, 3], [0, 1], [0, 2]] ⟨1, 0, 0.5, 1, 1, 3⟩).max_price) :=
  ⟨by simp,
    C6_extrema_bound_percentiles [[0, 3], [0, 1], [0, 2]] ⟨1, 0, 0.5, 1, 1, 3⟩ (by simp)⟩

/-- C8: for every non-empty ensemble, the computed standard deviation is
non-negative, and it is zero exactly when all terminal values are
identical. -/
theorem C8_std_dev_nonneg_iff_const (paths : List (List ℝ)) (p : SimulationParams)
    (hne : paths ≠ []) :
    0 ≤ (calculateStatistics paths p).std_dev ∧
    ((calculateStatistics paths p).std_dev = 0 ↔
      ∀ x ∈ finalPrices paths p.steps, ∀ y ∈ finalPrices paths p.steps, x = y) := by
  have hn : 0 < paths.length := List.length_pos.mpr hne
  have hnR : (0 : ℝ) < (paths.length : ℝ) := by exact_mod_cast hn
  have hFlen : (finalPrices paths p.steps).length = paths.length := by
    rw [finalPrices, List.length_map]
  have hsd : (calculateStatistics paths p).std_dev =
      Real.sqrt (((finalPrices paths p.steps).map
          (fun x => (x - (finalPrices paths p.steps).sum / (paths.length : ℝ)) *
            (x - (finalPrices paths p.steps).sum / (paths.length : ℝ)))).sum /
        (paths.length : ℝ)) := rfl
  have hterms : ∀ y ∈ (finalPrices paths p.steps).map
      (fun x => (x - (finalPrices paths p.steps).sum / (paths.length : ℝ)) *
        (x - (finalPrices paths p.steps).sum / (paths.length : ℝ))), 0 ≤ y := by
    intro y hy
    obtain ⟨x, _, rfl⟩ := List.mem_map.mp hy
    exact mul_self_nonneg _
  have hssum : 0 ≤ ((finalPrices paths p.steps).map
      (fun x => (x - (finalPrices paths p.steps).sum / (paths.length : ℝ)) *
        (x - (finalPrices paths p.steps).sum / (paths.length : ℝ)))).sum :=
    List.sum_nonneg hterms
  constructor
  · rw [hsd]; exact Real.sqrt_nonneg _
  rw [hsd, Real.sqrt_eq_zero']
  constructor
  · intro hle
    have hsum0 : ((finalPrices paths p.steps).map
        (fun x => (x - (finalPrices paths p.steps).sum / (paths.length : ℝ)) *
          (x - (finalPrices paths p.steps).sum / (paths.length : ℝ)))).sum = 0 := by
      rcases lt_or_eq_of_le hssum with hlt | heq
      · exfalso
        have : 0 < ((finalPrices paths p.steps).map
            (fun x => (x - (finalPrices paths p.steps).sum / (paths.length : ℝ)) *
              (x - (finalPrices paths p.steps).sum / (paths.length : ℝ)))).sum /
            (paths.length : ℝ) := div_pos hlt hnR
        linarith
      · exact heq.symm
    have hall := (list_sum_eq_zero_iff hterms).mp hsum0
    intro x hx y hy
    have hxm : x = (finalPrices paths p.steps).sum / (paths.length : ℝ) := by
      have h1 := hall _ (List.mem_map_of_mem _ hx)
      have h2 := mul_self_eq_zero.mp h1
      linarith
    have hym : y = (finalPrices paths p.steps).sum / (paths.length : ℝ) := by
      have h1 := hall _ (List.mem_map_of_mem _ hy)
      have h2 := mul_self_eq_zero.mp h1
      linarith
    rw [hxm, hym]
  · intro hconst
    have hFne : finalPrices paths p.steps ≠ [] :=
      List.length_pos.mp (hFlen ▸ hn)
    obtain ⟨a, ha⟩ := List.exists_mem_of_ne_nil _ hFne
    have haall : ∀ x ∈ finalPrices paths p.steps, x = a := fun x hx => hconst x hx a ha
    have hsum : (finalPrices paths p.steps).sum =
        ((finalPrices paths p.steps).length : ℝ) * a :=
      list_sum_all_eq _ a haall
    have hma : (finalPrices paths p.steps).sum / (paths.length : ℝ) = a := by
      rw [hsum, hFlen]
      field_simp
    have hzero : ∀ y ∈ (finalPrices paths p.steps).map
        (fun x => (x - (finalPrices paths p.steps).sum / (paths.length : ℝ)) *
          (x - (finalPrices paths p.steps).sum / (paths.length : ℝ))), y = 0 := by
      intro y hy
      obtain ⟨x, hx, rfl⟩ := List.mem_map.mp hy
      rw [haall x hx, hma]
      ring
    rw [(list_sum_eq_zero_iff hterms).mpr hzero, zero_div]

/-- Witness for C8 on the 2-path ensemble with both terminal values `5`. -/
theorem C8_std_dev_nonneg_iff_const_witness :
    ([[0, 5], [0, 5]] : List (List ℝ)) ≠ [] ∧
    (0 ≤ (calculateStatistics [[0, 5], [0, 5]] ⟨1, 0, 0, 1, 1, 2⟩).std_dev ∧
     ((calculateStatistics [[0, 5], [0, 5]] ⟨1, 0, 0, 1, 1, 2⟩).std_dev = 0 ↔
       ∀ x ∈ finalPrices [[0, 5], [0, 5]] (⟨1, 0, 0, 1, 1, 2⟩ : SimulationParams).steps,
       ∀ y ∈ finalPrices [[0, 5], [0, 5]] (⟨1, 0, 0, 1, 1, 2⟩ : SimulationParams).steps,
         x = y)) :=
  ⟨by simp, C8_std_dev_nonneg_iff_const [[0, 5], [0, 5]] ⟨1, 0, 0, 1, 1, 2⟩ (by simp)⟩

/-- C9: for every valid parameter set, the time-points export has exactly
`steps + 1` entries, the `i`-th being `i · (T / steps)`, and these values
match, position by position, the time values written in the header row of
the paths export. -/
theorem C9_time_points_roundtrip (p : SimulationParams)
    (hsteps : 1 ≤ p.steps) (hT : 0 < p.T) :
    (timePointsFile p).length = p.steps + 1 ∧
    (∀ i ≤ p.steps, (timePointsFile p).getD i 0 = (i : ℝ) * (p.T / p.steps)) ∧
    timePointsFile p = headerTimes p := by
  have hlen : (timePointsFile p).length = p.steps + 1 := by
    rw [timePointsFile, List.length_map, List.length_range]
  refine ⟨hlen, ?_, rfl⟩
  intro i hi
  have hlt : i < p.steps + 1 := Nat.lt_succ_of_le hi
  rw [timePointsFile]
  rw [List.getD_eq_getElem _ 0 (by rw [List.length_map, List.length_range]; exact hlt),
    List.getElem_map, List.getElem_range]

/-- Witness for C9 at `T = 1`, `steps = 2`. -/
theorem C9_time_points_roundtrip_witness :
    1 ≤ (2 : ℕ) ∧ (0 : ℝ) < 1 ∧
    ((timePointsFile ⟨100, 0.05, 0.2, 1, 2, 10⟩).length = 2 + 1 ∧
     (∀ i ≤ 2, (timePointsFile ⟨100, 0.05, 0.2, 1, 2, 10⟩).getD i 0 =
       (i : ℝ) * (1 / 2)) ∧
     timePointsFile ⟨100, 0.05, 0.2, 1, 2, 10⟩ = headerTimes ⟨100, 0.05, 0.2, 1, 2, 10⟩) :=
  ⟨by norm_num, by norm_num,
    C9_time_points_roundtrip ⟨100, 0.05, 0.2, 1, 2, 10⟩ (by norm_num) (by norm_num)⟩

/-- C10: for every non-empty ensemble both percentile ranks computed by
`calculateStatistics` — the truncations of `0.05 · num_paths` and of
`0.95 · num_paths` — are strictly below the length of the sorted
terminal-value list, so the percentile accesses are always in bounds. -/
theorem C10_percentile_access_in_bounds (paths : List (List ℝ)) (p : SimulationParams)
    (hne : paths ≠ []) :
    percentileIndex 0.05 paths.length <
      ((finalPrices paths p.steps).insertionSort (· ≤ ·)).length ∧
    percentileIndex 0.95 paths.length <
      ((finalPrices paths p.steps).insertionSort (· ≤ ·)).length := by
  have hn : 0 < paths.length := List.length_pos.mpr hne
  obtain ⟨h5, h95⟩ := percentileIndex_lt paths.length hn
  have hslen : ((finalPrices paths p.steps).insertionSort (· ≤ ·)).length = paths.length := by
    rw [List.length_insertionSort, finalPrices, List.length_map]
  exact ⟨by rw [hslen]; exact h5, by rw [hslen]; exact h95⟩

/-- Witness for C10 on a 1-path ensemble. -/
theorem C10_percentile_access_in_bounds_witness :
    ([[1, 2]] : List (List ℝ)) ≠ [] ∧
    (percentileIndex 0.05 ([[1, 2]] : List (List ℝ)).length <
       ((finalPrices [[1, 2]] (⟨1, 0, 0, 1, 1, 1⟩ : SimulationParams).steps).insertionSort
         (· ≤ ·)).length ∧
     percentileIndex 0.95 ([[1, 2]] : List (List ℝ)).length <
       ((finalPrices [[1, 2]] (⟨1, 0, 0, 1, 1, 1⟩ : SimulationParams).steps).insertionSort
         (· ≤ ·)).length) :=
  ⟨by simp, C10_percentile_access_in_bounds [[1, 2]] ⟨1, 0, 0, 1, 1, 1⟩ (by simp)⟩

/-- C5 fails on the code: `main` performs no parameter validation, so an
`InvalidParameter` input — here `S0 = -1 ≤ 0` with `steps = 10`,
`num_paths = 2` — is passed straight to the core, which runs and returns a
full 2-path ensemble whose trajectories start at the invalid price `-1`
instead of the input being rejected before the core runs. -/
theorem C5_main_never_rejects :
    InvalidParameter ⟨-1, 0, 0.2, 1, 10, 2⟩ ∧
    ∀ Z : ℕ → ℝ,
      mainSim ⟨-1, 0, 0.2, 1, 10, 2⟩ Z =
        Except.ok (runMonteCarloSimulation ⟨-1, 0, 0.2, 1, 10, 2⟩ Z) ∧
      (runMonteCarloSimulation ⟨-1, 0, 0.2, 1, 10, 2⟩ Z).length = 2 ∧
      ((runMonteCarloSimulation ⟨-1, 0, 0.2, 1, 10, 2⟩ Z).getD 0 []).getD 0 0 = -1 := by
  constructor
  · unfold InvalidParameter
    norm_num
  intro Z
  refine ⟨rfl, rfl, ?_⟩
  show (((generatePath ⟨-1, 0, 0.2, 1, 10, 2⟩ Z 0).1 ::
      runLoop ⟨-1, 0, 0.2, 1, 10, 2⟩ Z (generatePath ⟨-1, 0, 0.2, 1, 10, 2⟩ Z 0).2 1).getD
        0 []).getD 0 0 = -1
  rw [List.getD_cons_zero]
  exact generatePath_getD ⟨-1, 0, 0.2, 1, 10, 2⟩ Z 0 (Nat.zero_le _)
